import Mathlib

/-!
Verification of the statistical kernel declared in `src/src/tools.h` of the
mpdaf repository: mean, sum, median, index sort, sigma-clipping and linear
interpolation over arrays of doubles, optionally restricted to an index
subset.  Doubles are embedded as rationals (`ℚ`), arrays as `List ℚ`, the
optional index subset `int* indx` as `Option (List ℕ)`, and the 3-element
output buffer `double x[3]` as a triple `ℚ × ℚ × ℚ`.  Only the header is
present in the repository source; each routine's body is therefore modelled
from the specification, as noted in its doc comment.
-/

/-- Selection of the elements a computation works on: `none` means the full
array (indices `0..n-1`), `some idx` restricts to the listed indices, per the
data model of the spec.  An out-of-range index reads the default `0` (the
spec's invariant requires all indices to lie in `[0, n)`). -/
def select (data : List ℚ) (indx : Option (List ℕ)) : List ℚ :=
  match indx with
  | none => data
  | some idx => idx.map (fun i => data.getD i 0)

/-- C-style accumulator loop summing a list of doubles. -/
def sumLoop : List ℚ → ℚ → ℚ
  | [], acc => acc
  | d :: rest, acc => sumLoop rest (acc + d)

/-- Modelled from the spec: the implementation file `tools.c` is not under
`src/` (only the header `src/src/tools.h` declares `mpdaf_sum`).  Per §4.1:
"returns the sum of selected elements (or all elements if no index subset).
Result is 0.0 for n=0" — an accumulator loop over the selected elements,
starting from `0`. -/
def mpdaf_sum (data : List ℚ) (indx : Option (List ℕ)) : ℚ :=
  sumLoop (select data indx) 0

/-- Modelled from the spec: `tools.c` is not under `src/` (only the header
declares `void mpdaf_mean(double* data, int n, double x[3], int* indx)`).
Per §4.1 the routine "computes arithmetic mean of selected elements, writes
into `x[0]` the mean, `x[1]` the sample variance (or 0 if count ≤ 1), `x[2]`
the count of contributing elements".  The body is the usual C one-pass
accumulation of count, sum and sum of squares, with
`variance = (s2 - n·m²)/(n-1)`.  The returned triple models the output
buffer `x[3]`; the `void` return type leaves no other output channel. -/
def mpdaf_mean (data : List ℚ) (indx : Option (List ℕ)) : ℚ × ℚ × ℚ :=
  let sel := select data indx
  let n : ℚ := (sel.length : ℚ)
  let s := sumLoop sel 0
  let s2 := sumLoop (sel.map (fun d => d * d)) 0
  let m := s / n
  let v := if sel.length ≤ 1 then 0 else (s2 - n * m * m) / (n - 1)
  (m, v, n)

/-- The arithmetic mean as the spec words it: sum of the elements divided by
their number. -/
def arithMean (l : List ℚ) : ℚ := l.sum / (l.length : ℚ)

/-- The sample variance as the spec words it: sum of squared deviations from
the mean, divided by `count - 1`; `0` when the count is at most 1. -/
def sampleVar (l : List ℚ) : ℚ :=
  if l.length ≤ 1 then 0
  else (l.map (fun d => (d - arithMean l) ^ 2)).sum / ((l.length : ℚ) - 1)

theorem sumLoop_eq_add_sum (l : List ℚ) : ∀ acc : ℚ, sumLoop l acc = acc + l.sum := by
  induction l with
  | nil => intro acc; simp [sumLoop]
  | cons d rest ih =>
    intro acc
    simp only [sumLoop, ih, List.sum_cons]
    ring

theorem sumLoop_eq_sum (l : List ℚ) : sumLoop l 0 = l.sum := by
  simp [sumLoop_eq_add_sum]

theorem sq_dev_sum (m : ℚ) (l : List ℚ) :
    (l.map (fun d => (d - m) ^ 2)).sum
      = (l.map (fun d => d * d)).sum - 2 * m * l.sum + (l.length : ℚ) * m ^ 2 := by
  induction l with
  | nil => simp
  | cons d rest ih =>
    simp only [List.map_cons, List.sum_cons, ih, List.length_cons, Nat.cast_succ]
    ring

/-- Claim C8: `mpdaf_mean` writes into `x[0]` the arithmetic mean of the
selected elements, into `x[1]` their sample variance (`0` when the count of
contributing elements is at most 1), and into `x[2]` the count of
contributing elements. -/
theorem mpdaf_mean_spec (data : List ℚ) (indx : Option (List ℕ)) :
    mpdaf_mean data indx
      = (arithMean (select data indx), sampleVar (select data indx),
          ((select data indx).length : ℚ)) := by
  set sel := select data indx with hsel
  show (_, _, _) = (_, _, _)
  refine Prod.ext ?_ (Prod.ext ?_ rfl)
  · show sumLoop sel 0 / (sel.length : ℚ) = arithMean sel
    rw [sumLoop_eq_sum, arithMean]
  · show (if sel.length ≤ 1 then (0 : ℚ)
        else (sumLoop (sel.map (fun d => d * d)) 0
          - (sel.length : ℚ) * (sumLoop sel 0 / (sel.length : ℚ))
            * (sumLoop sel 0 / (sel.length : ℚ))) / ((sel.length : ℚ) - 1))
        = sampleVar sel
    rw [sampleVar]
    by_cases h : sel.length ≤ 1
    · simp [h]
    · simp only [h, if_false]
      rw [sq_dev_sum, sumLoop_eq_sum, sumLoop_eq_sum, arithMean]
      have hn : (sel.length : ℚ) ≠ 0 := by
        have h1 : 0 < sel.length := Nat.zero_lt_of_lt (Nat.lt_of_not_le h)
        exact_mod_cast h1.ne'
      congr 1
      field_simp
      ring

/-- Claim C1: for a non-empty array with no index subset, the mean written
into `x[0]` equals `mpdaf_sum` of the array divided by its length `n`. -/
theorem mpdaf_mean_eq_sum_div_n (data : List ℚ) (_h : data ≠ []) :
    (mpdaf_mean data none).1 = mpdaf_sum data none / (data.length : ℚ) := rfl

/-- Witness for C1 at the concrete array `[1, 2, 3]`. -/
theorem mpdaf_mean_eq_sum_div_n_witness :
    ([1, 2, 3] : List ℚ) ≠ [] ∧
      (mpdaf_mean [1, 2, 3] none).1
        = mpdaf_sum [1, 2, 3] none / ((([1, 2, 3] : List ℚ).length : ℚ)) :=
  ⟨by decide, mpdaf_mean_eq_sum_div_n [1, 2, 3] (by decide)⟩

/-- Claim C9: `mpdaf_sum` returns the sum of the selected elements (all
elements when `indx` is null), and returns `0.0` when `n = 0`. -/
theorem mpdaf_sum_spec :
    (∀ data : List ℚ, mpdaf_sum data none = data.sum) ∧
      (∀ (data : List ℚ) (idx : List ℕ),
        mpdaf_sum data (some idx) = (idx.map (fun i => data.getD i 0)).sum) ∧
      (∀ indx : Option (List ℕ), mpdaf_sum [] indx = 0) := by
  refine ⟨fun data => ?_, fun data idx => ?_, fun indx => ?_⟩
  · rw [mpdaf_sum, select, sumLoop_eq_sum]
  · rw [mpdaf_sum, select, sumLoop_eq_sum]
  · rcases indx with _ | idx
    · rw [mpdaf_sum, select, sumLoop_eq_sum]; rfl
    · rw [mpdaf_sum, select, sumLoop_eq_sum]
      exact List.sum_eq_zero (by simp)

/-- Comparison used by `indexx`: index `i` precedes index `j` when the value
at `i` is smaller, or the values are equal and `i ≤ j` (ties broken by
original index order, which makes the sort stable). -/
def idxLe (arr : List ℚ) (i j : ℕ) : Prop :=
  arr.getD i 0 < arr.getD j 0 ∨ (arr.getD i 0 = arr.getD j 0 ∧ i ≤ j)

instance (arr : List ℚ) (i j : ℕ) : Decidable (idxLe arr i j) :=
  inferInstanceAs (Decidable (_ ∨ _))

instance (arr : List ℚ) : IsTotal ℕ (idxLe arr) where
  total i j := by
    rcases lt_trichotomy (arr.getD i 0) (arr.getD j 0) with h | h | h
    · exact Or.inl (Or.inl h)
    · rcases Nat.le_total i j with hij | hij
      · exact Or.inl (Or.inr ⟨h, hij⟩)
      · exact Or.inr (Or.inr ⟨h.symm, hij⟩)
    · exact Or.inr (Or.inl h)

instance (arr : List ℚ) : IsTrans ℕ (idxLe arr) where
  trans i j k hij hjk := by
    rcases hij with h1 | ⟨e1, l1⟩ <;> rcases hjk with h2 | ⟨e2, l2⟩
    · exact Or.inl (h1.trans h2)
    · exact Or.inl (e2 ▸ h1)
    · exact Or.inl (e1 ▸ h2)
    · exact Or.inr ⟨e1.trans e2, l1.trans l2⟩

/-- Modelled from the spec: `tools.c` is not under `src/` (only the header
declares `int indexx(int n, double *arr, int *indx)`).  Per §4.2 it "produces
the permutation of indices that sorts the array (or subset) ascending; ties
broken by original index order (stable)".  The returned list models the
filled output buffer `indx`; the `int` status return is not modelled.  The
body sorts the indices `0..n-1` by value, ties by index. -/
def indexx (n : ℕ) (arr : List ℚ) : List ℕ :=
  (List.range n).insertionSort (idxLe arr)

theorem indexx_sorted (n : ℕ) (arr : List ℚ) :
    List.Pairwise (idxLe arr) (indexx n arr) :=
  List.sorted_insertionSort _ _

theorem indexx_perm (n : ℕ) (arr : List ℚ) : (indexx n arr).Perm (List.range n) :=
  List.perm_insertionSort _ _

theorem indexx_nodup (n : ℕ) (arr : List ℚ) : (indexx n arr).Nodup :=
  ((indexx_perm n arr).nodup_iff).mpr (List.nodup_range n)

theorem indexx_map_sorted (n : ℕ) (arr : List ℚ) :
    List.Sorted (· ≤ ·) ((indexx n arr).map (fun i => arr.getD i 0)) := by
  rw [List.Sorted, List.pairwise_map]
  refine (indexx_sorted n arr).imp (fun h => ?_)
  rcases h with h | ⟨e, _⟩
  · exact h.le
  · exact e.le

theorem indexx_stable (n : ℕ) (arr : List ℚ) :
    List.Pairwise (fun i j => arr.getD i 0 = arr.getD j 0 → i < j) (indexx n arr) := by
  rw [List.pairwise_iff_getElem]
  intro a b ha hb hab heq
  have hle := (List.pairwise_iff_getElem.mp (indexx_sorted n arr)) a b ha hb hab
  have hne := (List.pairwise_iff_getElem.mp (indexx_nodup n arr)) a b ha hb hab
  rcases hle with h | ⟨_, hij⟩
  · exact absurd heq h.ne
  · exact Nat.lt_of_le_of_ne hij hne

/-- Claim C3: the permutation produced by `indexx`, applied to `arr`, yields
a non-decreasing sequence, and elements that compare equal keep their
original relative index order (stability). -/
theorem indexx_sorts_and_stable (arr : List ℚ) :
    List.Sorted (· ≤ ·) ((indexx arr.length arr).map (fun i => arr.getD i 0)) ∧
      List.Pairwise (fun i j => arr.getD i 0 = arr.getD j 0 → i < j)
        (indexx arr.length arr) :=
  ⟨indexx_map_sorted arr.length arr, indexx_stable arr.length arr⟩

theorem range_map_getD (l : List ℚ) :
    (List.range l.length).map (fun i => l.getD i 0) = l := by
  apply List.ext_getElem
  · simp
  · intro i h1 h2
    simp only [List.getElem_map, List.getElem_range]
    exact List.getD_eq_getElem l 0 h2

theorem indexx_map_eq_insertionSort (l : List ℚ) :
    (indexx l.length l).map (fun i => l.getD i 0) = l.insertionSort (· ≤ ·) := by
  have hperm : ((indexx l.length l).map (fun i => l.getD i 0)).Perm
      (l.insertionSort (· ≤ ·)) := by
    refine ((indexx_perm l.length l).map (fun i => l.getD i 0)).trans ?_
    rw [range_map_getD]
    exact (List.perm_insertionSort _ l).symm
  exact List.eq_of_perm_of_sorted hperm (indexx_map_sorted l.length l)
    (List.sorted_insertionSort _ l)

/-- Modelled from the spec: `tools.c` is not under `src/` (only the header
declares `double mpdaf_median(double* data, int n, int* indx)`).  Per §4.2:
"computes the median using the sorted order from `indexx`; for even counts,
returns the average of the two central values; for odd counts, the central
value." -/
def medianCore (l : List ℚ) : ℚ :=
  let s := (indexx l.length l).map (fun i => l.getD i 0)
  if l.length % 2 = 1 then s.getD (l.length / 2) 0
  else (s.getD (l.length / 2 - 1) 0 + s.getD (l.length / 2) 0) / 2

def mpdaf_median (data : List ℚ) (indx : Option (List ℕ)) : ℚ :=
  medianCore (select data indx)

/-- Median as the spec's testable property words it: the middle element of
the sorted array when its length is odd, the average of the two middle
elements when it is even. -/
def medianSpec (l : List ℚ) : ℚ :=
  let s := l.insertionSort (· ≤ ·)
  if l.length % 2 = 1 then s.getD (l.length / 2) 0
  else (s.getD (l.length / 2 - 1) 0 + s.getD (l.length / 2) 0) / 2

/-- Claim C2: for every array and count, `mpdaf_median` (which reads the
central values in the ascending order produced by `indexx`) returns the
central value of the selected elements when the count is odd, and the
average of the two central values when the count is even — that is, it
agrees with the median read off the independently sorted selection. -/
theorem mpdaf_median_spec (data : List ℚ) (indx : Option (List ℕ)) :
    mpdaf_median data indx = medianSpec (select data indx) := by
  rw [mpdaf_median, medianCore, medianSpec, indexx_map_eq_insertionSort]

/-- Count of leading elements of the list that are at most `x`: the scan
behind `mpdaf_locate`. -/
def locCount (x : ℚ) : List ℚ → ℕ
  | [] => 0
  | d :: rest => if x < d then 0 else locCount x rest + 1

/-- Modelled from the spec: `tools.c` is not under `src/` (only the header
declares `int mpdaf_locate(double* data, int n, double x)`).  Per §4.4 the
routine returns, for a sorted array, the index `i` with
`data[i] ≤ x < data[i+1]`, and boundary sentinels `-1` below the range and
`n-1` at or above its top.  The bisection is modelled by its defining
result: the number of leading elements that are at most `x`, minus one. -/
def mpdaf_locate (data : List ℚ) (x : ℚ) : Int :=
  (locCount x data : Int) - 1

theorem locCount_le_length (x : ℚ) (l : List ℚ) : locCount x l ≤ l.length := by
  induction l with
  | nil => simp [locCount]
  | cons d rest ih =>
    rw [locCount]
    by_cases h : x < d
    · simp [h]
    · simpa [h] using ih

theorem locCount_eq_zero (x : ℚ) (l : List ℚ) (h : x < l.getD 0 0) :
    locCount x l = 0 := by
  cases l with
  | nil => rfl
  | cons d rest =>
    have hd : x < d := by simpa using h
    simp [locCount, hd]

theorem locCount_pos (x : ℚ) (l : List ℚ) (hne : l ≠ []) (h : l.getD 0 0 ≤ x) :
    0 < locCount x l := by
  cases l with
  | nil => exact absurd rfl hne
  | cons d rest =>
    rw [locCount, if_neg (not_lt.mpr (by simpa using h))]
    exact Nat.succ_pos _

theorem getD_mem (l : List ℚ) (i : ℕ) (h : i < l.length) : l.getD i 0 ∈ l := by
  rw [List.getD_eq_getElem l 0 h]
  exact List.getElem_mem h

theorem getD_locCount_pred_le (x : ℚ) (l : List ℚ) (hs : List.Sorted (· ≤ ·) l)
    (h : 0 < locCount x l) : l.getD (locCount x l - 1) 0 ≤ x := by
  induction l with
  | nil => simp [locCount] at h
  | cons d rest ih =>
    rw [locCount] at h ⊢
    by_cases hd : x < d
    · simp [hd] at h
    · rw [if_neg hd] at h ⊢
      rcases Nat.eq_zero_or_pos (locCount x rest) with h0 | hpos
      · simpa [h0] using not_lt.mp hd
      · have : locCount x rest + 1 - 1 = (locCount x rest - 1) + 1 := by omega
        rw [this, List.getD_cons_succ]
        exact ih hs.of_cons hpos

theorem lt_getD_locCount (x : ℚ) (l : List ℚ) (h : locCount x l < l.length) :
    x < l.getD (locCount x l) 0 := by
  induction l with
  | nil => simp at h
  | cons d rest ih =>
    rw [locCount] at h ⊢
    by_cases hd : x < d
    · rw [if_pos hd]
      simpa using hd
    · rw [if_neg hd] at h ⊢
      rw [List.getD_cons_succ]
      exact ih (by simpa using h)

theorem locCount_eq_length (x : ℚ) (l : List ℚ) (hs : List.Sorted (· ≤ ·) l)
    (hne : l ≠ []) (h : l.getD (l.length - 1) 0 ≤ x) : locCount x l = l.length := by
  by_contra hcon
  have hlt : locCount x l < l.length :=
    Nat.lt_of_le_of_ne (locCount_le_length x l) hcon
  have hx := lt_getD_locCount x l hlt
  have hmono : l.getD (locCount x l) 0 ≤ l.getD (l.length - 1) 0 := by
    have hc : locCount x l < l.length := hlt
    have hl1 : l.length - 1 < l.length := by
      cases l with
      | nil => exact absurd rfl hne
      | cons a t => simp
    rcases Nat.lt_or_ge (locCount x l) (l.length - 1) with hlt2 | hge
    · have := (List.pairwise_iff_getElem.mp hs) (locCount x l) (l.length - 1) hc hl1 hlt2
      rwa [List.getD_eq_getElem l 0 hc, List.getD_eq_getElem l 0 hl1]
    · have : locCount x l = l.length - 1 := by omega
      rw [this]
  exact absurd (lt_of_lt_of_le hx (hmono.trans h)) (lt_irrefl x)

theorem getD_mono (l : List ℚ) (hs : List.Sorted (· ≤ ·) l) (a b : ℕ)
    (hab : a ≤ b) (hb : b < l.length) : l.getD a 0 ≤ l.getD b 0 := by
  rcases Nat.lt_or_ge a b with h | h
  · have := (List.pairwise_iff_getElem.mp hs) a b (lt_of_le_of_lt hab hb) hb h
    rwa [List.getD_eq_getElem l 0 (lt_of_le_of_lt hab hb),
      List.getD_eq_getElem l 0 hb]
  · have : a = b := le_antisymm hab h
    rw [this]

theorem locCount_eq_of_bracket (x : ℚ) (l : List ℚ) (hs : List.Sorted (· ≤ ·) l)
    (k : ℕ) (hk : k + 1 < l.length) (h1 : l.getD k 0 ≤ x) (h2 : x < l.getD (k + 1) 0) :
    locCount x l = k + 1 := by
  have hle : locCount x l ≤ k + 1 := by
    by_contra hcon
    have hgt : k + 1 < locCount x l := Nat.lt_of_not_le hcon
    have hpos : 0 < locCount x l := by omega
    have hb := getD_locCount_pred_le x l hs hpos
    have hm : l.getD (k + 1) 0 ≤ l.getD (locCount x l - 1) 0 :=
      getD_mono l hs (k + 1) (locCount x l - 1) (by omega)
        (by have := locCount_le_length x l; omega)
    exact absurd (lt_of_lt_of_le h2 (hm.trans hb)) (lt_irrefl x)
  have hge : k + 1 ≤ locCount x l := by
    by_contra hcon
    have hlt : locCount x l ≤ k := by omega
    have hx := lt_getD_locCount x l (by omega)
    have hm : l.getD (locCount x l) 0 ≤ l.getD k 0 :=
      getD_mono l hs (locCount x l) k hlt (by omega)
    exact absurd (lt_of_lt_of_le hx (hm.trans h1)) (lt_irrefl x)
  omega

/-- Claim C6: for a sorted array, `mpdaf_locate` returns the bracketing
index `i` with `data[i] ≤ x < data[i+1]` when one exists, the lower sentinel
`-1` when `x` is below the range, and the upper sentinel `n-1` when `x` is
at or above its top; in particular `locate [1,3,5,7] 4 = 1`,
`locate [1,3,5,7] 0 = -1` and `locate [1,3,5,7] 8 = 3`. -/
theorem mpdaf_locate_spec (data : List ℚ) (x : ℚ)
    (hs : List.Sorted (· ≤ ·) data) :
    (data ≠ [] → x < data.getD 0 0 → mpdaf_locate data x = -1) ∧
      (data ≠ [] → data.getD (data.length - 1) 0 ≤ x →
        mpdaf_locate data x = (data.length : Int) - 1) ∧
      (data ≠ [] → data.getD 0 0 ≤ x → x < data.getD (data.length - 1) 0 →
        ∃ k : ℕ, mpdaf_locate data x = (k : Int) ∧ k + 1 < data.length ∧
          data.getD k 0 ≤ x ∧ x < data.getD (k + 1) 0) ∧
      mpdaf_locate [1, 3, 5, 7] 4 = 1 ∧ mpdaf_locate [1, 3, 5, 7] 0 = -1 ∧
      mpdaf_locate [1, 3, 5, 7] 8 = 3 := by
  refine ⟨fun _ hlow => ?_, fun _ hhigh => ?_, fun hne h0 hlast => ?_,
    by decide, by decide, by decide⟩
  · rw [mpdaf_locate, locCount_eq_zero x data hlow]
    rfl
  · rw [mpdaf_locate, locCount_eq_length x data hs (by assumption) hhigh]
  · have hpos : 0 < locCount x data := locCount_pos x data hne h0
    have hlt : locCount x data < data.length := by
      by_contra hcon
      have heq : locCount x data = data.length :=
        le_antisymm (locCount_le_length x data) (Nat.le_of_not_lt hcon)
      have := getD_locCount_pred_le x data hs hpos
      rw [heq] at this
      exact absurd (lt_of_le_of_lt this hlast) (lt_irrefl _)
    refine ⟨locCount x data - 1, ?_, by omega, ?_, ?_⟩
    · rw [mpdaf_locate]
      omega
    · exact getD_locCount_pred_le x data hs hpos
    · have : locCount x data - 1 + 1 = locCount x data := by omega
      rw [this]
      exact lt_getD_locCount x data hlt

/-- Witness for C6: the sorted-array hypothesis holds at `[1,3,5,7]`, and the
theorem there yields the three example evaluations. -/
theorem mpdaf_locate_spec_witness :
    List.Sorted (· ≤ ·) ([1, 3, 5, 7] : List ℚ) ∧
      mpdaf_locate [1, 3, 5, 7] 4 = 1 ∧ mpdaf_locate [1, 3, 5, 7] 0 = -1 ∧
      mpdaf_locate [1, 3, 5, 7] 8 = 3 :=
  ⟨by decide, (mpdaf_locate_spec [1, 3, 5, 7] 4 (by decide)).2.2.2⟩

/-- Modelled from the spec: `tools.c` is not under `src/` (only the header
declares `double mpdaf_linear_interpolation(double* xx, double* yy, int n,
double x)`).  Per §4.4: returns the y-value at `x` linearly interpolated
over the bracketing interval found via the `mpdaf_locate` logic; for `x`
outside `[xx[0], xx[n-1]]`, the nearest endpoint value, matching the
sentinel policy of `mpdaf_locate`. -/
def mpdaf_linear_interpolation (xx yy : List ℚ) (x : ℚ) : ℚ :=
  let n := xx.length
  let i := mpdaf_locate xx x
  if i < 0 then yy.getD 0 0
  else if i = (n : Int) - 1 then yy.getD (n - 1) 0
  else
    let k := i.toNat
    let x0 := xx.getD k 0
    let x1 := xx.getD (k + 1) 0
    let y0 := yy.getD k 0
    let y1 := yy.getD (k + 1) 0
    y0 + (y1 - y0) * (x - x0) / (x1 - x0)

/-- Claim C7: for ascending `xx` with parallel `yy`, the value returned by
`mpdaf_linear_interpolation` lies on the line through the bracketing points
whenever `x` is bracketed, and `x` outside `[xx[0], xx[n-1]]` is clamped to
the nearest endpoint value; in particular the interpolation of
`[0,10] ↦ [0,100]` at `5` is `50`. -/
theorem mpdaf_linear_interpolation_spec (xx yy : List ℚ) (x : ℚ)
    (hs : List.Sorted (· < ·) xx) (_hlen : xx.length = yy.length) :
    (xx ≠ [] → x < xx.getD 0 0 →
        mpdaf_linear_interpolation xx yy x = yy.getD 0 0) ∧
      (xx ≠ [] → xx.getD (xx.length - 1) 0 ≤ x →
        mpdaf_linear_interpolation xx yy x = yy.getD (xx.length - 1) 0) ∧
      (∀ k : ℕ, k + 1 < xx.length → xx.getD k 0 ≤ x → x < xx.getD (k + 1) 0 →
        (mpdaf_linear_interpolation xx yy x - yy.getD k 0)
            * (xx.getD (k + 1) 0 - xx.getD k 0)
          = (yy.getD (k + 1) 0 - yy.getD k 0) * (x - xx.getD k 0)) ∧
      mpdaf_linear_interpolation [0, 10] [0, 100] 5 = 50 := by
  have hsle : List.Sorted (· ≤ ·) xx := hs.imp le_of_lt
  refine ⟨fun _ hlow => ?_, fun hne hhigh => ?_, fun k hk h1 h2 => ?_, ?_⟩
  · rw [mpdaf_linear_interpolation]
    have h0 : locCount x xx = 0 := locCount_eq_zero x xx hlow
    simp only [mpdaf_locate, h0]
    norm_num
  · rw [mpdaf_linear_interpolation]
    have hlen1 : 0 < xx.length := List.length_pos.mpr hne
    have h0 : locCount x xx = xx.length := locCount_eq_length x xx hsle hne hhigh
    simp only [mpdaf_locate, h0]
    rw [if_neg (by omega)]
    simp
  · rw [mpdaf_linear_interpolation]
    have h0 : locCount x xx = k + 1 := locCount_eq_of_bracket x xx hsle k hk h1 h2
    simp only [mpdaf_locate, h0]
    rw [if_neg (by push_cast; omega), if_neg (by push_cast; omega)]
    have htn : (((k + 1 : ℕ) : Int) - 1).toNat = k := by omega
    rw [htn]
    have hx01 : xx.getD k 0 < xx.getD (k + 1) 0 := by
      have := (List.pairwise_iff_getElem.mp hs) k (k + 1) (by omega) hk (by omega)
      rwa [List.getD_eq_getElem xx 0 (by omega), List.getD_eq_getElem xx 0 hk]
    have hne01 : xx.getD (k + 1) 0 - xx.getD k 0 ≠ 0 := sub_ne_zero.mpr hx01.ne'
    set a := xx.getD k 0
    set b := xx.getD (k + 1) 0
    set c := yy.getD k 0
    set e := yy.getD (k + 1) 0
    field_simp
    ring
  · rw [mpdaf_linear_interpolation]
    norm_num [mpdaf_locate, locCount]

/-- Witness for C7: the hypotheses hold at `xx = [0,10]`, `yy = [0,100]`,
and the theorem there yields the example evaluation `50`. -/
theorem mpdaf_linear_interpolation_spec_witness :
    List.Sorted (· < ·) ([0, 10] : List ℚ) ∧
      ([0, 10] : List ℚ).length = ([0, 100] : List ℚ).length ∧
      mpdaf_linear_interpolation [0, 10] [0, 100] 5 = 50 :=
  ⟨by decide, rfl,
    (mpdaf_linear_interpolation_spec [0, 10] [0, 100] 5 (by decide) rfl).2.2.2⟩

/-- The sample-variance field `x[1]` computed by `mpdaf_mean`, used as the
squared dispersion of the active set during sigma-clipping. -/
def activeVar (l : List ℚ) : ℚ := (mpdaf_mean l none).2.1

/-- Whether an element `d` survives one clip against the current `center`
and squared dispersion `v` (`sigma = √v`): the spec's §4.3 band
`center - nclip_low·sigma ≤ d ≤ center + nclip_up·sigma`, written with
squared comparisons so the test stays in exact rational arithmetic (for
nonnegative `nclip_low` and `nclip_up` this is the same band). -/
def clipKeep (center v low up d : ℚ) : Bool :=
  (decide (center ≤ d) || decide ((center - d) ^ 2 ≤ low ^ 2 * v)) &&
    (decide (d ≤ center) || decide ((d - center) ^ 2 ≤ up ^ 2 * v))

/-- One sigma-clipping pass per §4.3: compute the center (`f`) and the
dispersion of the active set, and keep the elements inside the band. -/
def clipStep (f : List ℚ → ℚ) (low up : ℚ) (active : List ℚ) : List ℚ :=
  active.filter (clipKeep (f active) (activeVar active) low up)

/-- Modelled from the spec: `tools.c` is not under `src/` (only the header
declares the two sigma-clipping routines).  The §4.3 iteration: clip the
active set against its current center and dispersion; stop when the clip
would leave no surviving element (the spec's "must stop before count
reaches 0", keeping the pre-clip set), when fewer than `nstop` elements
were rejected in this iteration (convergence), or when `nmax` iterations
have been performed (iteration cap).  Returns the final active set, the
number of iterations performed, and the number of elements rejected in the
last performed iteration. -/
def sigmaClipLoop (f : List ℚ → ℚ) (low up : ℚ) (nstop : ℕ) :
    ℕ → List ℚ → List ℚ × ℕ × ℕ
  | 0, active => (active, 0, 0)
  | Nat.succ k, active =>
    let survivors := clipStep f low up active
    let rejected := active.length - survivors.length
    if survivors.isEmpty then (active, 1, rejected)
    else if rejected < nstop then (survivors, 1, rejected)
    else
      let r := sigmaClipLoop f low up nstop k survivors
      (r.1, r.2.1 + 1, r.2.2)

/-- Center used by `mpdaf_mean_sigma_clip`: the mean of the active set. -/
def centerMean (l : List ℚ) : ℚ := (mpdaf_mean l none).1

/-- Center used by `mpdaf_median_sigma_clip`: the median of the active
set. -/
def centerMedian (l : List ℚ) : ℚ := mpdaf_median l none

/-- Modelled from the spec: `tools.c` is not under `src/` (only the header
declares `void mpdaf_mean_sigma_clip(double* data, int n, double x[3], int
nmax, double nclip_low, double nclip_up, int nstop, int* indx)`).  Per §4.3
step 5 it writes the final (center, dispersion, surviving count) into
`x[0..2]`; the returned triple models the buffer, with `x[1]` holding the
squared dispersion (the C dispersion is its square root). -/
def mpdaf_mean_sigma_clip (data : List ℚ) (nmax : ℕ) (low up : ℚ)
    (nstop : ℕ) (indx : Option (List ℕ)) : ℚ × ℚ × ℚ :=
  let fin := (sigmaClipLoop centerMean low up nstop nmax (select data indx)).1
  (centerMean fin, activeVar fin, (fin.length : ℚ))

/-- Modelled from the spec: as `mpdaf_mean_sigma_clip`, with the median as
the center estimate (§4.3). -/
def mpdaf_median_sigma_clip (data : List ℚ) (nmax : ℕ) (low up : ℚ)
    (nstop : ℕ) (indx : Option (List ℕ)) : ℚ × ℚ × ℚ :=
  let fin := (sigmaClipLoop centerMedian low up nstop nmax (select data indx)).1
  (centerMedian fin, activeVar fin, (fin.length : ℚ))

theorem sigmaClipLoop_stop (f : List ℚ → ℚ) (low up : ℚ) (nstop : ℕ) :
    ∀ (nmax : ℕ) (active : List ℚ),
      (sigmaClipLoop f low up nstop nmax active).2.1 ≤ nmax ∧
        ((sigmaClipLoop f low up nstop nmax active).2.2 < nstop ∨
          (sigmaClipLoop f low up nstop nmax active).2.1 = nmax ∨
          clipStep f low up (sigmaClipLoop f low up nstop nmax active).1 = []) := by
  intro nmax
  induction nmax with
  | zero => intro active; exact ⟨Nat.le_refl 0, Or.inr (Or.inl rfl)⟩
  | succ k ih =>
    intro active
    rw [sigmaClipLoop]
    by_cases hemp : (clipStep f low up active).isEmpty = true
    · rw [if_pos hemp]
      dsimp only
      exact ⟨by omega, Or.inr (Or.inr (List.isEmpty_iff.mp hemp))⟩
    · rw [if_neg hemp]
      by_cases hconv : active.length - (clipStep f low up active).length < nstop
      · rw [if_pos hconv]
        dsimp only
        exact ⟨by omega, Or.inl hconv⟩
      · rw [if_neg hconv]
        dsimp only
        rcases ih (clipStep f low up active) with ⟨h1, h2⟩
        refine ⟨by omega, ?_⟩
        rcases h2 with h | h | h
        · exact Or.inl h
        · exact Or.inr (Or.inl (by omega))
        · exact Or.inr (Or.inr h)

theorem sigmaClipLoop_ne_nil (f : List ℚ → ℚ) (low up : ℚ) (nstop : ℕ) :
    ∀ (nmax : ℕ) (active : List ℚ), active ≠ [] →
      (sigmaClipLoop f low up nstop nmax active).1 ≠ [] := by
  intro nmax
  induction nmax with
  | zero => intro active h; exact h
  | succ k ih =>
    intro active h
    rw [sigmaClipLoop]
    by_cases hemp : (clipStep f low up active).isEmpty = true
    · rw [if_pos hemp]
      exact h
    · rw [if_neg hemp]
      by_cases hconv : active.length - (clipStep f low up active).length < nstop
      · rw [if_pos hconv]
        exact fun he => hemp (List.isEmpty_iff.mpr he)
      · rw [if_neg hconv]
        exact ih (clipStep f low up active)
          (fun he => hemp (List.isEmpty_iff.mpr he))

/-- Claim C4 (amended): for every non-empty input the sigma-clipping
iteration of `mpdaf_mean_sigma_clip` and `mpdaf_median_sigma_clip`
terminates after at most `nmax` passes, and it stops exactly when the
number of elements rejected in the current iteration is below `nstop`, or
`nmax` iterations have been performed, or the clip would have removed every
surviving element (the stop-before-empty guard, which keeps the pre-clip
set). -/
theorem sigma_clip_termination (data : List ℚ) (nmax : ℕ) (low up : ℚ)
    (nstop : ℕ) (_h : data ≠ []) :
    ((sigmaClipLoop centerMean low up nstop nmax data).2.1 ≤ nmax ∧
        ((sigmaClipLoop centerMean low up nstop nmax data).2.2 < nstop ∨
          (sigmaClipLoop centerMean low up nstop nmax data).2.1 = nmax ∨
          clipStep centerMean low up
            (sigmaClipLoop centerMean low up nstop nmax data).1 = [])) ∧
      ((sigmaClipLoop centerMedian low up nstop nmax data).2.1 ≤ nmax ∧
        ((sigmaClipLoop centerMedian low up nstop nmax data).2.2 < nstop ∨
          (sigmaClipLoop centerMedian low up nstop nmax data).2.1 = nmax ∨
          clipStep centerMedian low up
            (sigmaClipLoop centerMedian low up nstop nmax data).1 = [])) :=
  ⟨sigmaClipLoop_stop centerMean low up nstop nmax data,
    sigmaClipLoop_stop centerMedian low up nstop nmax data⟩

/-- Witness for C4 (amended) at the concrete input `[5]` (nmax 3, clip 3σ,
nstop 1). -/
theorem sigma_clip_termination_witness :
    ([5] : List ℚ) ≠ [] ∧
      (sigmaClipLoop centerMean 3 3 1 3 [5]).2.1 ≤ 3 ∧
      (sigmaClipLoop centerMedian 3 3 1 3 [5]).2.1 ≤ 3 :=
  ⟨by decide, (sigma_clip_termination [5] 3 3 3 1 (by decide)).1.1,
    (sigma_clip_termination [5] 3 3 3 1 (by decide)).2.1⟩

/-- Counterexample to claim C4 as stated: at `data = [0, 10]` with
`nclip_low = nclip_up = 1/2`, `nstop = 1` and `nmax = 5`, the first clip
rejects both elements (the band `5 ± (1/2)·√50` contains neither `0` nor
`10`), so the stop-before-empty guard required by the spec's edge case
halts the loop after one iteration — although only `1 < 5 = nmax`
iterations were performed and the iteration rejected `2 ≥ nstop = 1`
elements, so neither of the claim's two stop conditions holds. -/
theorem sigma_clip_stop_counterexample :
    (sigmaClipLoop centerMean (1 / 2) (1 / 2) 1 5 [0, 10]).2.1 = 1 ∧
      (sigmaClipLoop centerMean (1 / 2) (1 / 2) 1 5 [0, 10]).2.2 = 2 ∧
      ¬((sigmaClipLoop centerMean (1 / 2) (1 / 2) 1 5 [0, 10]).2.2 < 1 ∨
        (sigmaClipLoop centerMean (1 / 2) (1 / 2) 1 5 [0, 10]).2.1 = 5) := by
  have hc : centerMean [0, 10] = 5 := by
    norm_num [centerMean, mpdaf_mean, select, sumLoop]
  have hv : activeVar [0, 10] = 50 := by
    norm_num [activeVar, mpdaf_mean, select, sumLoop]
  have hk0 : clipKeep 5 50 (1 / 2) (1 / 2) 0 = false := by
    rw [clipKeep]
    simp only [Bool.and_eq_false_iff, Bool.or_eq_false_iff, decide_eq_false_iff_not]
    norm_num
  have hk10 : clipKeep 5 50 (1 / 2) (1 / 2) 10 = false := by
    rw [clipKeep]
    simp only [Bool.and_eq_false_iff, Bool.or_eq_false_iff, decide_eq_false_iff_not]
    norm_num
  have hstep : clipStep centerMean (1 / 2) (1 / 2) [0, 10] = [] := by
    rw [clipStep, hc, hv]
    simp only [List.filter_cons, List.filter_nil, hk0, hk10, Bool.false_eq_true,
      if_false]
  have hloop : sigmaClipLoop centerMean (1 / 2) (1 / 2) 1 5 [0, 10]
      = ([0, 10], 1, 2) := by
    rw [show (5 : ℕ) = Nat.succ 4 from rfl, sigmaClipLoop, hstep]
    simp
  rw [hloop]
  refine ⟨rfl, rfl, ?_⟩
  dsimp only
  omega

/-- Claim C5: for every non-empty selection the surviving set of the
sigma-clipping loop stays non-empty — the routine stops before clipping
removes every element — so the count written to `x[2]` by
`mpdaf_mean_sigma_clip` and `mpdaf_median_sigma_clip` is at least 1. -/
theorem sigma_clip_count_positive (data : List ℚ) (nmax : ℕ) (low up : ℚ)
    (nstop : ℕ) (indx : Option (List ℕ)) (h : select data indx ≠ []) :
    (sigmaClipLoop centerMean low up nstop nmax (select data indx)).1 ≠ [] ∧
      (sigmaClipLoop centerMedian low up nstop nmax (select data indx)).1 ≠ [] ∧
      1 ≤ (mpdaf_mean_sigma_clip data nmax low up nstop indx).2.2 ∧
      1 ≤ (mpdaf_median_sigma_clip data nmax low up nstop indx).2.2 := by
  have h1 := sigmaClipLoop_ne_nil centerMean low up nstop nmax (select data indx) h
  have h2 := sigmaClipLoop_ne_nil centerMedian low up nstop nmax (select data indx) h
  refine ⟨h1, h2, ?_, ?_⟩
  · have hl : 1 ≤ (sigmaClipLoop centerMean low up nstop nmax
        (select data indx)).1.length := List.length_pos.mpr h1
    show (1 : ℚ) ≤ ((sigmaClipLoop centerMean low up nstop nmax
      (select data indx)).1.length : ℚ)
    exact_mod_cast hl
  · have hl : 1 ≤ (sigmaClipLoop centerMedian low up nstop nmax
        (select data indx)).1.length := List.length_pos.mpr h2
    show (1 : ℚ) ≤ ((sigmaClipLoop centerMedian low up nstop nmax
      (select data indx)).1.length : ℚ)
    exact_mod_cast hl

/-- Witness for C5 at the concrete input `[5]` (nmax 3, clip 3σ, nstop 1, no
subset). -/
theorem sigma_clip_count_positive_witness :
    select [5] none ≠ [] ∧
      (1 ≤ (mpdaf_mean_sigma_clip [5] 3 3 3 1 none).2.2 ∧
        1 ≤ (mpdaf_median_sigma_clip [5] 3 3 3 1 none).2.2) :=
  ⟨by decide,
    ⟨(sigma_clip_count_positive [5] 3 3 3 1 none (by decide)).2.2.1,
      (sigma_clip_count_positive [5] 3 3 3 1 none (by decide)).2.2.2⟩⟩

/-- Claim C10: `mpdaf_mean` has return type `void`, so its only output
channel is the caller-provided buffer `x[3]` (here the returned triple): for
every input — including the precondition-violating empty selection `n = 0` —
the call produces nothing but an ordinary triple, indistinguishable in kind
from a valid result, so no status or error code can be signalled through the
call interface. -/
theorem mpdaf_mean_void_interface :
    (∀ (data : List ℚ) (indx : Option (List ℕ)),
        ∃ p : ℚ × ℚ × ℚ, mpdaf_mean data indx = p) ∧
      mpdaf_mean [] none = (0, 0, 0) :=
  ⟨fun data indx => ⟨mpdaf_mean data indx, rfl⟩, by
    norm_num [mpdaf_mean, select, sumLoop]⟩
